import Mathlib

/-!
Verification of the ukulele-notes pitch-detection and note-matching engine.

The definitions below are a shallow embedding of the TypeScript source:
  - `src/lib/ukuleleConfig.ts` : note naming and detected-vs-expected classification;
  - `src/hooks/useAudioDetector.ts` : the YIN estimator, the temporal stabilizer
    (octave candidates, median, EMA, hold/decay) and session teardown;
  - `src/components/SongView.tsx` : best-of-many chord matching.

Machine numbers are modelled as exact rationals where the code is log-free
(the stabilizer and the YIN estimator) and as exact reals where the code uses
Math.log2 / Math.pow (the classifier and note naming).  The special values
NaN and plus/minus infinity of JS arithmetic, which the classifier relies on
when the expected frequency is nonpositive, are modelled symbolically by the
type `JSVal`.
-/

namespace UkuNotes

/-- Result type of `isNoteMatch` in `ukuleleConfig.ts`. -/
inductive MatchResult
  | correct
  | close
  | wrong
  deriving DecidableEq

/-- Status type used by `noteStatuses` in `SongView.tsx`: the three match
verdicts plus the caller-side default `waiting`. -/
inductive Status
  | correct
  | close
  | wrong
  | waiting
  deriving DecidableEq

/-- Injection of classifier verdicts into UI statuses. -/
def MatchResult.toStatus : MatchResult → Status
  | .correct => .correct
  | .close => .close
  | .wrong => .wrong

/-- A JS double, modelled symbolically: NaN, the two infinities, or an exact
finite real value. -/
inductive JSVal
  | nan
  | pinf
  | ninf
  | fin (x : ℝ)

/-- JS division `a / b` of two finite values: finite when `b` is nonzero,
otherwise a signed infinity (or NaN for `0 / 0`). -/
noncomputable def jsDiv (a b : ℝ) : JSVal :=
  if b = 0 then
    if 0 < a then .pinf else if a < 0 then .ninf else .nan
  else .fin (a / b)

/-- JS `Math.log2`: NaN on negatives and NaN, `-inf` at 0, `+inf` at `+inf`. -/
noncomputable def jsLog2 : JSVal → JSVal
  | .nan => .nan
  | .pinf => .pinf
  | .ninf => .nan
  | .fin x => if 0 < x then .fin (Real.logb 2 x) else if x = 0 then .ninf else .nan

/-- JS multiplication of a finite constant with a value
(`0 * inf = NaN`, sign rules on infinities). -/
noncomputable def jsMul (c : ℝ) : JSVal → JSVal
  | .nan => .nan
  | .pinf => if 0 < c then .pinf else if c < 0 then .ninf else .nan
  | .ninf => if 0 < c then .ninf else if c < 0 then .pinf else .nan
  | .fin x => .fin (c * x)

/-- JS `Math.abs`. -/
noncomputable def jsAbs : JSVal → JSVal
  | .nan => .nan
  | .pinf => .pinf
  | .ninf => .pinf
  | .fin x => .fin |x|

/-- JS comparison `v <= c` against a finite constant: false whenever `v` is
NaN or `+inf`, true for `-inf`. -/
def jsLe (v : JSVal) (c : ℝ) : Prop :=
  match v with
  | .nan => False
  | .pinf => False
  | .ninf => True
  | .fin x => x ≤ c

/-- The value `Math.abs(1200 * Math.log2(detected / expected))` computed by
`isNoteMatch`, including its JS special-value behaviour. -/
noncomputable def absCentsVal (detectedFrequency expectedFrequency : ℝ) : JSVal :=
  jsAbs (jsMul 1200 (jsLog2 (jsDiv detectedFrequency expectedFrequency)))

open Classical in
/-- Embedding of `isNoteMatch` from `src/lib/ukuleleConfig.ts`
(default tolerance in the source is 50 cents; the tolerance is passed
explicitly here). -/
noncomputable def isNoteMatch (detectedFrequency expectedFrequency : ℝ)
    (toleranceCents : ℝ) : MatchResult :=
  if detectedFrequency ≤ 0 then .wrong
  else
    let absCents := absCentsVal detectedFrequency expectedFrequency
    if jsLe absCents (toleranceCents / 2) then .correct
    else if jsLe absCents toleranceCents then .close
    else .wrong

/-- Chromatic note-name table from `ukuleleConfig.ts`. -/
def NOTE_NAMES : List String :=
  ["C", "C#", "D", "D#", "E", "F"] ++
    ["F#", "G", "G#", "A", "A#", "B"]

/-- Sentinel name returned for a nonpositive frequency. -/
def noNoteName : String := "-"

/-- Return value of `getNoteFromFrequency`. -/
structure NoteInfo where
  note : String
  octave : ℤ
  cents : ℤ
  deriving DecidableEq

/-- Reference frequency `C0 = 440 * 2^(-4.75)` from `getNoteFromFrequency`. -/
noncomputable def C0 : ℝ := 440 * (2 : ℝ) ^ (-(4.75 : ℝ))

/-- Semitone distance from C0: `halfSteps = 12 * Math.log2(frequency / C0)`. -/
noncomputable def halfStepsOf (frequency : ℝ) : ℝ :=
  12 * Real.logb 2 (frequency / C0)

open Classical in
/-- Embedding of `getNoteFromFrequency` from `src/lib/ukuleleConfig.ts`.
JS `Math.round x` is `Int.floor (x + 1/2)`, which is Mathlib `round`;
JS `%` on integers is truncated remainder `Int.tmod`. -/
noncomputable def getNoteFromFrequency (frequency : ℝ) : NoteInfo :=
  if frequency ≤ 0 then ⟨noNoteName, 0, 0⟩
  else
    let halfSteps := halfStepsOf frequency
    let octave := ⌊halfSteps / 12⌋
    let noteIndex := (round halfSteps).tmod 12
    let cents := round ((halfSteps - round halfSteps) * 100)
    ⟨NOTE_NAMES.getD (if noteIndex < 0 then noteIndex + 12 else noteIndex).toNat noNoteName,
      octave, cents⟩

/-! ## Temporal stabilizer (`useAudioDetector.ts`, `processAudio`)

The per-frame smoothing logic is log-free, so it is embedded over exact
rationals and is fully executable.  One frame of external input consists of
the processed-block RMS (`volume`), the YIN result for the block
(`yinFreq`, `yinQuality`; the step only consults it when `volume >= minRms`,
exactly as the source only runs YIN then), and the result of
`fftPeakFrequency` (`fftFreq`, -1 when no usable peak — the source function
returns -1 or an in-band frequency). -/

/-- The detector options held in `pitchOptsRef`. -/
structure PitchOpts where
  minFreq : ℚ
  maxFreq : ℚ
  threshold : ℚ
  minRms : ℚ
  minQuality : ℚ
  softQuality : ℚ
  allowSoftStart : Bool
  deriving DecidableEq

/-- The cross-frame stabilizer state: `smoothedFreqRef`, `lastFreqsRef`,
`missesRef`. -/
structure StabState where
  smoothed : ℚ
  hist : List ℚ
  misses : ℕ
  deriving DecidableEq

/-- Reset stabilizer state (listening start / stop). -/
def resetStab : StabState := ⟨0, [], 0⟩

/-- One frame of external input to `processAudio`. -/
structure FrameInput where
  volume : ℚ
  yinFreq : ℚ
  yinQuality : ℚ
  fftFreq : ℚ
  deriving DecidableEq

/-- First element of `[a, b, c].sort((x, y) => |x - prev| - |y - prev|)`:
the candidate closest to `prev`, earlier candidates winning ties (JS sort is
stable). -/
def pickClosest (prev a b c : ℚ) : ℚ :=
  if |a - prev| ≤ |b - prev| then
    if |a - prev| ≤ |c - prev| then a else c
  else
    if |b - prev| ≤ |c - prev| then b else c

/-- Embedding of `median` from `useAudioDetector.ts`: sort ascending, take
the middle element (odd length) or the mean of the two middle elements
(even length); 0 for the empty list. -/
def median (values : List ℚ) : ℚ :=
  if values.length = 0 then 0
  else
    let sorted := values.insertionSort (· ≤ ·)
    let mid := sorted.length / 2
    if sorted.length % 2 = 1 then sorted.getD mid 0
    else (sorted.getD (mid - 1) 0 + sorted.getD mid 0) / 2

/-- The raw estimate and confidence after the YIN gating and the spectral
fallback: YIN runs only when `volume >= minRms`; the fallback replaces a
missing or low-confidence result when `volume >= minRms * 1.3` and the FFT
peak is positive, lifting the confidence to `softQuality`. -/
def effectiveRaw (o : PitchOpts) (inp : FrameInput) : ℚ × ℚ :=
  let base := if o.minRms ≤ inp.volume then (inp.yinFreq, inp.yinQuality) else (-1, 0)
  if (base.1 ≤ 0 ∨ base.2 < o.softQuality) ∧ o.minRms * (13 / 10) ≤ inp.volume ∧
      0 < inp.fftFreq then
    (inp.fftFreq, max base.2 o.softQuality)
  else base

/-- The accepted frequency for this frame (`detected` in the source; -1 when
no estimate is accepted): hard accept at `minQuality`, octave-candidate
continuity accept at `softQuality` when a prior smoothed value exists, and
the `allowSoftStart` bootstrap. -/
def detectedOf (o : PitchOpts) (st : StabState) (inp : FrameInput) : ℚ :=
  let r := effectiveRaw o inp
  let rawFreq := r.1
  let quality := r.2
  if 0 < rawFreq ∧ o.minQuality ≤ quality then rawFreq
  else if 0 < rawFreq ∧ o.softQuality ≤ quality then
    if 0 < st.smoothed then
      let best := pickClosest st.smoothed rawFreq (rawFreq / 2) (rawFreq * 2)
      let ratio := best / st.smoothed
      if 86 / 100 < ratio ∧ ratio < 116 / 100 then best else -1
    else if o.allowSoftStart ∧ o.minRms * (7 / 5) ≤ inp.volume then rawFreq
    else -1
  else -1

/-- History freshening `buf.push(detected); if (buf.length > 5) buf.shift()`:
append the accepted value and evict the oldest entry past the window of 5. -/
def pushHist (hist : List ℚ) (d : ℚ) : List ℚ :=
  let b := hist ++ [d]
  if 5 < b.length then b.drop 1 else b

/-- The accepted-frame half of `processAudio`: median over the freshened
history, a second octave re-resolution of the median against the previous
smoothed value, then the adaptive EMA (alpha 0.08 on a big jump, else 0.18);
the miss counter resets to 0. -/
def acceptStep (st : StabState) (d : ℚ) : StabState :=
  let buf := pushHist st.hist d
  let stable0 := median buf
  let stable :=
    if 0 < st.smoothed then
      pickClosest st.smoothed stable0 (stable0 / 2) (stable0 * 2)
    else stable0
  let prev := if st.smoothed = 0 then stable else st.smoothed
  let jumpRatio := if 0 < prev then stable / prev else 1
  let isBigJump := 0 < prev ∧ (118 / 100 < jumpRatio ∨ jumpRatio < 85 / 100)
  let alpha : ℚ := if isBigJump then 8 / 100 else 18 / 100
  ⟨prev * (1 - alpha) + stable * alpha, buf, 0⟩

/-- The missed-frame half of `processAudio`: with soft start, a live smoothed
value and RMS at least `minRms * 0.7`, decay by 0.995 for up to 10
consecutive misses, otherwise clear the smoothed value and the history. -/
def missStep (o : PitchOpts) (st : StabState) (inp : FrameInput) : StabState :=
  if o.allowSoftStart ∧ 0 < st.smoothed ∧ o.minRms * (7 / 10) ≤ inp.volume then
    if st.misses + 1 ≤ 10 then ⟨st.smoothed * (995 / 1000), st.hist, st.misses + 1⟩
    else ⟨0, [], st.misses + 1⟩
  else ⟨0, [], st.misses + 1⟩

/-- One frame of `processAudio` after the estimators: returns the new
stabilizer state and the reported frequency (`nextFreq`, which in every
branch of the source equals the updated smoothed value). -/
def stepFrame (o : PitchOpts) (st : StabState) (inp : FrameInput) :
    StabState × ℚ :=
  if 0 < detectedOf o st inp then
    let st2 := acceptStep st (detectedOf o st inp)
    (st2, st2.smoothed)
  else
    let st2 := missStep o st inp
    (st2, st2.smoothed)

/-- Inductive invariant for the stabilizer: the smoothed value is 0 or in
`(0, 4*maxFreq]`, and every history entry is in `(0, 2*maxFreq]`. -/
def StabInv (o : PitchOpts) (s : StabState) : Prop :=
  (s.smoothed = 0 ∨ (0 < s.smoothed ∧ s.smoothed ≤ 4 * o.maxFreq)) ∧
  ∀ x ∈ s.hist, 0 < x ∧ x ≤ 2 * o.maxFreq

/-- Folding `stepFrame` over a list of frames. -/
def runFrames (o : PitchOpts) (st : StabState) (inps : List FrameInput) :
    StabState :=
  inps.foldl (fun s i => (stepFrame o s i).1) st

/-- State after n frames drawn from a stream of inputs. -/
def iterFrames (o : PitchOpts) (st : StabState) (ins : ℕ → FrameInput) :
    ℕ → StabState
  | 0 => st
  | n + 1 => (stepFrame o (iterFrames o st ins n) (ins n)).1

/-- A frame input whose estimator results respect the configured band:
`yinPitchDetailed` only returns -1 or an in-band frequency, and
`fftPeakFrequency` likewise. -/
def bandValid (o : PitchOpts) (inp : FrameInput) : Prop :=
  (inp.yinFreq ≤ 0 ∨ (o.minFreq ≤ inp.yinFreq ∧ inp.yinFreq ≤ o.maxFreq)) ∧
  (inp.fftFreq ≤ 0 ∨ (o.minFreq ≤ inp.fftFreq ∧ inp.fftFreq ≤ o.maxFreq))

instance (o : PitchOpts) (inp : FrameInput) : Decidable (bandValid o inp) := by
  unfold bandValid
  infer_instance

/-! ## Primary estimator (`yinPitchDetailed` in `useAudioDetector.ts`)

The YIN difference-function pitch detector is log-free, so it is embedded
over exact rationals.  The buffer is a list of samples; all array reads the
algorithm performs are in range, so the out-of-range default of `getD` is
never consulted.  JS `Math.floor` on a finite quotient is `Int.floor`; the
band bounds positive (as every caller passes) keep the quotients finite. -/

/-- Read of the processed buffer at an index. -/
def bufAt (buffer : List ℚ) (i : ℕ) : ℚ := buffer.getD i 0

/-- Half block length `half = Math.floor(bufferSize / 2)`. -/
def yinHalf (buffer : List ℚ) : ℕ := buffer.length / 2

/-- Largest lag `maxTau = Math.min(half - 1, Math.floor(sampleRate / minFreq))`. -/
def yinMaxTau (buffer : List ℚ) (sampleRate minFreq : ℚ) : ℤ :=
  min ((yinHalf buffer : ℤ) - 1) ⌊sampleRate / minFreq⌋

/-- Smallest lag `minTau = Math.max(2, Math.floor(sampleRate / maxFreq))`. -/
def yinMinTau (sampleRate maxFreq : ℚ) : ℤ :=
  max 2 ⌊sampleRate / maxFreq⌋

/-- Difference function `d(tau) = Σ_{i < half} (x[i] - x[i+tau])²`. -/
def yinDiff (buffer : List ℚ) (τ : ℤ) : ℚ :=
  ∑ i ∈ Finset.range (yinHalf buffer),
    (bufAt buffer i - bufAt buffer (i + τ.toNat)) ^ 2

/-- Running sum `Σ_{k = minTau..tau} d(k)` maintained by the CMND loop. -/
def yinRunSum (buffer : List ℚ) (minTau τ : ℤ) : ℚ :=
  ∑ j ∈ Finset.range ((τ - minTau).toNat + 1), yinDiff buffer (minTau + j)

/-- Cumulative mean normalized difference: `d(tau)·tau / runningSum` when the
running sum is positive, defensively 1 otherwise; overridden to 1 at
`minTau` (by definition in the source). -/
def yinCmnd (buffer : List ℚ) (minTau τ : ℤ) : ℚ :=
  if τ = minTau then 1
  else if 0 < yinRunSum buffer minTau τ then
    yinDiff buffer τ * (τ : ℚ) / yinRunSum buffer minTau τ
  else 1

/-- The integer lags from `a` to `b` inclusive (empty when `b < a`). -/
def yinLagList (a b : ℤ) : List ℤ :=
  (List.range (b - a + 1).toNat).map (fun j : ℕ => a + (j : ℤ))

/-- The absolute-threshold scan: the first lag in `[minTau+1, maxTau]` whose
CMND value drops below the threshold. -/
def yinScan (buffer : List ℚ) (threshold : ℚ) (minTau maxTau : ℤ) : Option ℤ :=
  (yinLagList (minTau + 1) maxTau).find?
    (fun τ => decide (yinCmnd buffer minTau τ < threshold))

/-- The local-minimum walk: keep advancing while the next CMND value is
smaller (fuel bounds the walk at `maxTau`). -/
def yinWalk (buffer : List ℚ) (minTau maxTau : ℤ) : ℕ → ℤ → ℤ
  | 0, τ => τ
  | fuel + 1, τ =>
    if τ + 1 ≤ maxTau ∧ yinCmnd buffer minTau (τ + 1) < yinCmnd buffer minTau τ then
      yinWalk buffer minTau maxTau fuel (τ + 1)
    else τ

/-- The selected lag (`tauEstimate`): threshold scan followed by the
local-minimum walk; `none` when no CMND value drops below the threshold. -/
def yinSelect (buffer : List ℚ) (threshold : ℚ) (minTau maxTau : ℤ) : Option ℤ :=
  (yinScan buffer threshold minTau maxTau).map
    (fun τ => yinWalk buffer minTau maxTau (maxTau - τ).toNat τ)

/-- The parabolic-interpolation denominator `2*s1 - s2 - s0` over the
selected lag and its clamped neighbors. -/
def yinParabolaDenom (buffer : List ℚ) (minTau maxTau τ : ℤ) : ℚ :=
  let x0 := if minTau < τ then τ - 1 else τ
  let x2 := if τ < maxTau then τ + 1 else τ
  2 * yinCmnd buffer minTau τ - yinCmnd buffer minTau x2 - yinCmnd buffer minTau x0

/-- Parabolic refinement of the selected lag; falls back to the unrefined
integer lag when the parabola denominator is 0. -/
def yinRefine (buffer : List ℚ) (minTau maxTau τ : ℤ) : ℚ :=
  let x0 := if minTau < τ then τ - 1 else τ
  let x2 := if τ < maxTau then τ + 1 else τ
  let s0 := yinCmnd buffer minTau x0
  let s2 := yinCmnd buffer minTau x2
  let denom := yinParabolaDenom buffer minTau maxTau τ
  if denom ≠ 0 then (τ : ℚ) + (s2 - s0) / (2 * denom) else (τ : ℚ)

/-- Result of the YIN estimator. -/
structure YinResult where
  freq : ℚ
  quality : ℚ
  deriving DecidableEq

/-- Embedding of `yinPitchDetailed` from `useAudioDetector.ts`.  A zero
refined lag makes `sampleRate / betterTau` non-finite in JS; that and the
band check fold into the same no-pitch return. -/
def yinPitchDetailed (buffer : List ℚ)
    (sampleRate threshold minFreq maxFreq : ℚ) : YinResult :=
  if buffer.length / 2 < 2 then ⟨-1, 0⟩
  else
    let minTau := yinMinTau sampleRate maxFreq
    let maxTau := yinMaxTau buffer sampleRate minFreq
    match yinSelect buffer threshold minTau maxTau with
    | none => ⟨-1, 0⟩
    | some τ =>
      let better := yinRefine buffer minTau maxTau τ
      if better = 0 then ⟨-1, 0⟩
      else
        let freq := sampleRate / better
        if freq < minFreq ∨ maxFreq < freq then ⟨-1, 0⟩
        else ⟨freq, max 0 (min 1 (1 - yinCmnd buffer minTau τ))⟩

/-- An all-zero 8-sample block (pure silence). -/
def zeroBlock : List ℚ := [0, 0, 0, 0, 0, 0, 0, 0]

/-- Default-like options used for concrete runs (band 120–900 Hz, the
defaults of `pitchOptsRef`, soft start off). -/
def exOpts : PitchOpts := ⟨120, 900, 12 / 100, 11 / 1000, 68 / 100, 55 / 100, false⟩

/-- Two concrete frames: a hard accept at 900 Hz, then a soft-quality
estimate at 460 Hz whose doubled octave candidate 920 Hz wins. -/
def exFrames : List FrameInput := [⟨1, 900, 7 / 10, -1⟩, ⟨1, 460, 6 / 10, -1⟩]

/-- Tuner-profile options with soft start on (for the hold/decay run). -/
def exHoldOpts : PitchOpts := ⟨120, 900, 12 / 100, 1, 68 / 100, 55 / 100, true⟩

/-- A silent-ish frame stream: RMS 0.7 (at the hold/decay gate), no usable
YIN or FFT estimate. -/
def exHoldIns : ℕ → FrameInput := fun _ => ⟨7 / 10, -1, 0, -1⟩

/-! ## Chord matching (`SongView.tsx`) and session teardown

`noteStatuses` computes one verdict per frame for the current chord: the
record of statuses is modelled as a total function on (string, fret) keys,
defaulting to `waiting` exactly as the source initializes every position key
to `waiting`; the theorems only inspect position keys. -/

/-- Instrument kinds from `ukuleleConfig.ts`. -/
inductive UkuleleType
  | soprano
  | concert
  | tenor
  | baritone
  deriving DecidableEq

/-- Open-string frequencies of `UKULELE_TUNINGS` (G C E A for the first
three kinds, D G B E for baritone). -/
def tuningStrings : UkuleleType → List ℝ
  | .baritone => [146.83, 196, 246.94, 329.63]
  | _ => [392, 261.63, 329.63, 440]

/-- Embedding of `getFrequencyForPosition`: open-string base times
`2^(fret/12)`. -/
noncomputable def getFrequencyForPosition (t : UkuleleType) (stringIndex fret : ℕ) : ℝ :=
  (tuningStrings t).getD stringIndex 0 * (2 : ℝ) ^ ((fret : ℝ) / 12)

/-- A (string, fret) position in the app convention (0 = A ... 3 = G). -/
structure Pos where
  string : ℕ
  fret : ℕ
  deriving DecidableEq

/-- App-to-config string index mapping from `SongView.tsx`. -/
def appStringToConfigString (s : ℕ) : ℕ := 3 - s

/-- Expected frequency of a position as computed in `noteStatuses`. -/
noncomputable def expectedFreqOf (t : UkuleleType) (p : Pos) : ℝ :=
  getFrequencyForPosition t (appStringToConfigString p.string) p.fret

/-- The absolute cents distance `|1200 * log2(freq / expected)|`. -/
noncomputable def centsDistTo (freq expected : ℝ) : ℝ :=
  |1200 * Real.logb 2 (freq / expected)|

/-- The record key `` `${p.string}-${p.fret}` ``. -/
def posKey (p : Pos) : ℕ × ℕ := (p.string, p.fret)

open Classical in
/-- The best-match scan of `noteStatuses`: fold over the positions keeping
the first strict minimizer of the cents distance (bestKey, bestCents,
bestExpected). -/
noncomputable def bestOf (t : UkuleleType) (freq : ℝ) (positions : List Pos) :
    Option (Pos × ℝ × ℝ) :=
  positions.foldl
    (fun acc p =>
      let cents := centsDistTo freq (expectedFreqOf t p)
      match acc with
      | none => some (p, cents, expectedFreqOf t p)
      | some (b, bc, be) =>
        if cents < bc then some (p, cents, expectedFreqOf t p) else some (b, bc, be))
    none

open Classical in
/-- Embedding of the `noteStatuses` memo from `SongView.tsx`: every position
starts `waiting`; with practice on, listening, a positive frequency and a
nonempty chord, only the best-matching position receives the
`isNoteMatch` verdict (default tolerance 50). -/
noncomputable def noteStatuses (t : UkuleleType) (practiceOn isListening : Bool)
    (frequency : ℝ) (positions : List Pos) : ℕ × ℕ → Status :=
  if ¬practiceOn ∨ ¬isListening ∨ frequency ≤ 0 ∨ positions = [] then fun _ => .waiting
  else
    match bestOf t frequency positions with
    | none => fun _ => .waiting
    | some (b, _, be) =>
      fun k => if k = posKey b then (isNoteMatch frequency be 50).toStatus else .waiting

/-- The per-session resources and UI state owned by `useAudioDetector`:
the scheduled animation frame, the media stream, the audio context, the
analyser and the three typed-array buffers (present/absent), the stabilizer
state, and the published component state. -/
structure SessionState where
  animationFrame : Option ℕ
  stream : Bool
  audioContext : Bool
  analyser : Bool
  buffer : Bool
  processed : Bool
  freqData : Bool
  stab : StabState
  isListening : Bool
  frequency : ℚ
  volume : ℚ
  error : Option String
  deriving DecidableEq

/-- Embedding of `stopListening`: cancel the scheduled frame if any, stop
and drop the stream if any, close and drop the audio context if any, then
null every buffer, clear the stabilizer state and publish the not-listening
state. -/
def stopListening (s : SessionState) : SessionState :=
  let s1 := match s.animationFrame with
    | some _ => { s with animationFrame := none }
    | none => s
  let s2 := if s1.stream then { s1 with stream := false } else s1
  let s3 := if s2.audioContext then { s2 with audioContext := false } else s2
  { s3 with
    analyser := false, buffer := false, processed := false, freqData := false,
    stab := resetStab, isListening := false, frequency := 0, volume := 0,
    error := none }

/-- The fully-stopped session state. -/
def stoppedState : SessionState :=
  ⟨none, false, false, false, false, false, false, resetStab, false, 0, 0, none⟩

/-! ## Theorems -/

/-- Helper: with positive detected and expected frequencies, the absolute
cents value is the finite real `|1200 * log2 (d / e)|`. -/
theorem absCentsVal_pos (d e : ℝ) (hd : 0 < d) (he : 0 < e) :
    absCentsVal d e = .fin |1200 * Real.logb 2 (d / e)| := by
  unfold absCentsVal jsDiv
  rw [if_neg he.ne']
  simp only [jsLog2]
  rw [if_pos (div_pos hd he)]
  simp only [jsMul, jsAbs]

/-- C1: for detected d > 0, expected e > 0 and tolerance t, `isNoteMatch`
returns correct when `|1200*log2(d/e)| <= t/2`, close when
`|1200*log2(d/e)| <= t`, and wrong otherwise (boundaries inclusive); and for
d <= 0 it returns wrong regardless of e. -/
theorem isNoteMatch_spec (d e t : ℝ) :
    (0 < d → 0 < e →
      isNoteMatch d e t =
        (if |1200 * Real.logb 2 (d / e)| ≤ t / 2 then .correct
         else if |1200 * Real.logb 2 (d / e)| ≤ t then .close
         else .wrong)) ∧
    (d ≤ 0 → isNoteMatch d e t = .wrong) := by
  constructor
  · intro hd he
    unfold isNoteMatch
    rw [if_neg (not_le.mpr hd), absCentsVal_pos d e hd he]
    simp only [jsLe]
  · intro hd
    unfold isNoteMatch
    rw [if_pos hd]

/-- Witness for C1 at detected = expected = 440 Hz, tolerance 50. -/
theorem isNoteMatch_spec_witness :
    (0 : ℝ) < 440 ∧ isNoteMatch 440 440 50 = .correct := by
  refine ⟨by norm_num, ?_⟩
  have h := (isNoteMatch_spec 440 440 50).1 (by norm_num) (by norm_num)
  rw [h, show (440 : ℝ) / 440 = 1 by norm_num, Real.logb_one]
  norm_num

/-- C10: for detected d > 0 and expected e <= 0, the cents value is a
non-comparable JS value (NaN or +inf), both tolerance comparisons fail, and
`isNoteMatch` falls through to wrong. -/
theorem isNoteMatch_nonpos_expected (d e t : ℝ) (hd : 0 < d) (he : e ≤ 0) :
    (absCentsVal d e = .nan ∨ absCentsVal d e = .pinf) ∧
    ¬ jsLe (absCentsVal d e) (t / 2) ∧ ¬ jsLe (absCentsVal d e) t ∧
    isNoteMatch d e t = .wrong := by
  have habs : absCentsVal d e = .nan ∨ absCentsVal d e = .pinf := by
    unfold absCentsVal jsDiv
    rcases he.lt_or_eq with heneg | he0
    · rw [if_neg (ne_of_lt heneg)]
      simp only [jsLog2]
      have hde : d / e < 0 := div_neg_of_pos_of_neg hd heneg
      rw [if_neg (not_lt.mpr hde.le), if_neg (ne_of_lt hde)]
      left
      simp only [jsMul, jsAbs]
    · rw [if_pos he0, if_pos hd]
      simp only [jsLog2, jsMul, jsAbs]
      right
      rw [if_pos (by norm_num : (0 : ℝ) < 1200)]
  have hle : ∀ c : ℝ, ¬ jsLe (absCentsVal d e) c := by
    intro c
    rcases habs with h | h <;> rw [h] <;> exact not_false
  refine ⟨habs, hle _, hle _, ?_⟩
  unfold isNoteMatch
  rw [if_neg (not_le.mpr hd)]
  simp only []
  rw [if_neg (hle _), if_neg (hle _)]

/-- Witness for C10 at detected 1, expected 0, tolerance 50. -/
theorem isNoteMatch_nonpos_expected_witness :
    (0 : ℝ) < 1 ∧ (0 : ℝ) ≤ 0 ∧ isNoteMatch 1 0 50 = .wrong :=
  ⟨one_pos, le_refl 0,
    (isNoteMatch_nonpos_expected 1 0 50 one_pos (le_refl 0)).2.2.2⟩

/-- C7 counterexample: at the frequency `C0 * 2^(-1/24)` (half a semitone
below C0) the half-step value is exactly -1/2, JS rounding gives
`Math.round(-0.5) = 0`, and the cents offset is exactly -50 — outside the
claimed half-open interval (-50, 50]. -/
theorem getNote_cents_counterexample :
    (getNoteFromFrequency (C0 * (2 : ℝ) ^ (-(1 : ℝ) / 24))).cents = -50 ∧
    ¬ (-50 < (getNoteFromFrequency (C0 * (2 : ℝ) ^ (-(1 : ℝ) / 24))).cents ∧
        (getNoteFromFrequency (C0 * (2 : ℝ) ^ (-(1 : ℝ) / 24))).cents ≤ 50) := by
  have hC0 : (0 : ℝ) < C0 := by
    unfold C0
    positivity
  have hf : (0 : ℝ) < C0 * (2 : ℝ) ^ (-(1 : ℝ) / 24) := by positivity
  have hhs : halfStepsOf (C0 * (2 : ℝ) ^ (-(1 : ℝ) / 24)) = -(1 / 2 : ℝ) := by
    unfold halfStepsOf
    rw [mul_div_cancel_left₀ _ hC0.ne',
      Real.logb_rpow (by norm_num) (by norm_num)]
    norm_num
  have hcents :
      (getNoteFromFrequency (C0 * (2 : ℝ) ^ (-(1 : ℝ) / 24))).cents = -50 := by
    unfold getNoteFromFrequency
    rw [if_neg (not_le.mpr hf)]
    show round ((halfStepsOf _ - round (halfStepsOf _)) * 100) = -50
    rw [hhs]
    have hr0 : round (-(1 / 2 : ℝ)) = 0 := by
      rw [round_eq]
      norm_num
    rw [hr0]
    rw [show ((-(1 / 2 : ℝ) - ((0 : ℤ) : ℝ)) * 100) = -50 by norm_num, round_eq,
      show ((-50 : ℝ) + 1 / 2) = -99 / 2 by norm_num]
    rw [Int.floor_eq_iff]
    constructor <;> norm_num
  exact ⟨hcents, by rw [hcents]; norm_num⟩

/-- C7 amended: for every frequency f > 0, the cents offset equals
`round((halfSteps - round halfSteps) * 100)` and is an integer in the closed
interval [-50, 50] (the value -50 is attainable, so the interval is closed on
the left, not half-open). -/
theorem getNote_cents_range (f : ℝ) (hf : 0 < f) :
    (getNoteFromFrequency f).cents
        = round ((halfStepsOf f - round (halfStepsOf f)) * 100) ∧
    -50 ≤ (getNoteFromFrequency f).cents ∧
    (getNoteFromFrequency f).cents ≤ 50 := by
  have hcents : (getNoteFromFrequency f).cents
      = round ((halfStepsOf f - round (halfStepsOf f)) * 100) := by
    unfold getNoteFromFrequency
    rw [if_neg (not_le.mpr hf)]
  refine ⟨hcents, ?_, ?_⟩ <;> rw [hcents]
  all_goals
    set h := halfStepsOf f with hh
    have h1 : ((round h : ℤ) : ℝ) ≤ h + 1 / 2 := by
      rw [round_eq]
      exact Int.floor_le _
    have h2 : h + 1 / 2 - 1 < ((round h : ℤ) : ℝ) := by
      rw [round_eq]
      exact Int.sub_one_lt_floor _
    have hlo : -(1 / 2 : ℝ) ≤ h - round h := by linarith
    have hhi : h - round h < 1 / 2 := by linarith
  · rw [round_eq]
    rw [show ((-50 : ℤ)) = ((-50 : ℤ)) from rfl]
    refine Int.le_floor.mpr ?_
    push_cast
    linarith
  · rw [round_eq]
    have : ⌊(h - round h) * 100 + 1 / 2⌋ < 51 := by
      refine Int.floor_lt.mpr ?_
      push_cast
      linarith
    omega

/-- Witness for the amended C7 at f = 440 Hz. -/
theorem getNote_cents_range_witness :
    (0 : ℝ) < 440 ∧ -50 ≤ (getNoteFromFrequency 440).cents ∧
      (getNoteFromFrequency 440).cents ≤ 50 :=
  ⟨by norm_num, (getNote_cents_range 440 (by norm_num)).2.1,
    (getNote_cents_range 440 (by norm_num)).2.2⟩

/-! ### Stabilizer helper lemmas -/

/-- The closest-candidate pick is one of the three candidates. -/
theorem pickClosest_mem (p a b c : ℚ) :
    pickClosest p a b c = a ∨ pickClosest p a b c = b ∨ pickClosest p a b c = c := by
  unfold pickClosest
  split_ifs <;> simp

/-- The closest-candidate pick minimizes the distance to `prev` among the
three candidates. -/
theorem pickClosest_le (p a b c : ℚ) :
    |pickClosest p a b c - p| ≤ |a - p| ∧
    |pickClosest p a b c - p| ≤ |b - p| ∧
    |pickClosest p a b c - p| ≤ |c - p| := by
  unfold pickClosest
  split_ifs with h1 h2 h3 <;>
    simp only [not_le] at * <;>
    refine ⟨?_, ?_, ?_⟩ <;> linarith

/-- Bounds for `median`: on a nonempty list of values in `(0, B]`, the median
is in `(0, B]`. -/
theorem median_bounds (l : List ℚ) (B : ℚ) (hne : l ≠ [])
    (h : ∀ x ∈ l, 0 < x ∧ x ≤ B) : 0 < median l ∧ median l ≤ B := by
  have hlen : l.length ≠ 0 := fun h0 => hne (List.length_eq_zero.mp h0)
  unfold median
  rw [if_neg hlen]
  dsimp only
  set s := l.insertionSort (· ≤ ·) with hs
  have hperm : s.Perm l := List.perm_insertionSort _ l
  have hmem : ∀ x ∈ s, 0 < x ∧ x ≤ B := fun x hx => h x (hperm.mem_iff.mp hx)
  have hpos : 0 < s.length := by
    rw [hperm.length_eq]
    exact Nat.pos_of_ne_zero hlen
  have hmid : s.length / 2 < s.length := Nat.div_lt_self hpos (by norm_num)
  have hmid1 : s.length / 2 - 1 < s.length := lt_of_le_of_lt (Nat.sub_le _ _) hmid
  rw [List.getD_eq_getElem s 0 hmid, List.getD_eq_getElem s 0 hmid1]
  split_ifs with hodd
  · exact hmem _ (s.getElem_mem hmid)
  · have hA := hmem _ (s.getElem_mem hmid1)
    have hB := hmem _ (s.getElem_mem hmid)
    constructor
    · linarith [hA.1, hB.1]
    · linarith [hA.2, hB.2]

/-- The effective raw estimate (after YIN gating and the spectral fallback)
is the FFT peak, the YIN estimate, or the no-pitch sentinel -1. -/
theorem effectiveRaw_cases (o : PitchOpts) (inp : FrameInput) :
    effectiveRaw o inp = (inp.fftFreq, max inp.yinQuality o.softQuality) ∨
    effectiveRaw o inp = (inp.fftFreq, max 0 o.softQuality) ∨
    effectiveRaw o inp = (inp.yinFreq, inp.yinQuality) ∨
    (effectiveRaw o inp).1 = -1 := by
  unfold effectiveRaw
  rcases le_or_lt o.minRms inp.volume with hv | hv
  · rw [if_pos hv]
    dsimp only
    split_ifs <;> simp
  · rw [if_neg (not_le.mpr hv)]
    dsimp only
    split_ifs <;> simp

/-- If the effective raw estimate is positive, it lies in the configured
band. -/
theorem effectiveRaw_band (o : PitchOpts) (inp : FrameInput)
    (hband : bandValid o inp) (hpos : 0 < (effectiveRaw o inp).1) :
    o.minFreq ≤ (effectiveRaw o inp).1 ∧ (effectiveRaw o inp).1 ≤ o.maxFreq := by
  rcases effectiveRaw_cases o inp with h | h | h | h <;> rw [h] at hpos ⊢
  · rcases hband.2 with hf | hf
    · exact absurd hpos (not_lt.mpr hf)
    · exact hf
  · rcases hband.2 with hf | hf
    · exact absurd hpos (not_lt.mpr hf)
    · exact hf
  · rcases hband.1 with hf | hf
    · exact absurd hpos (not_lt.mpr hf)
    · exact hf
  · norm_num at hpos

/-- A positive accepted frequency is at most twice the band maximum (octave
candidates can double an in-band raw estimate). -/
theorem detectedOf_le (o : PitchOpts) (st : StabState) (inp : FrameInput)
    (hband : bandValid o inp) (hpos : 0 < detectedOf o st inp) :
    detectedOf o st inp ≤ 2 * o.maxFreq := by
  have hraw := effectiveRaw_band o inp hband
  unfold detectedOf at hpos ⊢
  dsimp only at hpos ⊢
  split_ifs at hpos ⊢ with h1 h2 h3 h4 h5
  · have hM := (hraw h1.1).2
    linarith [h1.1]
  · have hM := (hraw h2.1).2
    have h0 : (0 : ℚ) < (effectiveRaw o inp).1 := h2.1
    rcases pickClosest_mem st.smoothed (effectiveRaw o inp).1
      ((effectiveRaw o inp).1 / 2) ((effectiveRaw o inp).1 * 2) with hm | hm | hm <;>
      rw [hm] <;> linarith
  · exact absurd hpos (by norm_num)
  · have hM := (hraw h2.1).2
    linarith [h2.1]
  · exact absurd hpos (by norm_num)
  · exact absurd hpos (by norm_num)

/-- Every entry of the freshened history is an old entry or the new value. -/
theorem pushHist_mem (hist : List ℚ) (d x : ℚ) (hx : x ∈ pushHist hist d) :
    x ∈ hist ∨ x = d := by
  unfold pushHist at hx
  dsimp only at hx
  have hx2 : x ∈ hist ++ [d] := by
    split_ifs at hx with h5
    · exact List.mem_of_mem_drop hx
    · exact hx
  rcases List.mem_append.mp hx2 with h | h
  · exact Or.inl h
  · exact Or.inr (List.mem_singleton.mp h)

/-- The freshened history is nonempty. -/
theorem pushHist_ne_nil (hist : List ℚ) (d : ℚ) : pushHist hist d ≠ [] := by
  unfold pushHist
  dsimp only
  split_ifs with h5
  · apply List.length_pos.mp
    rw [List.length_drop, List.length_append]
    rw [List.length_append] at h5
    simp only [List.length_singleton] at h5 ⊢
    omega
  · simp

/-- The accepted-frame update preserves the stabilizer invariant, provided
the accepted value is positive and at most `2 * maxFreq`. -/
theorem acceptStep_inv (o : PitchOpts) (st : StabState) (d : ℚ)
    (hinv : StabInv o st) (hd : 0 < d) (hd2 : d ≤ 2 * o.maxFreq) :
    StabInv o (acceptStep st d) := by
  have hbufmem : ∀ x ∈ pushHist st.hist d, 0 < x ∧ x ≤ 2 * o.maxFreq := by
    intro x hx
    rcases pushHist_mem st.hist d x hx with h | h
    · exact hinv.2 x h
    · rw [h]
      exact ⟨hd, hd2⟩
  have hmed := median_bounds _ _ (pushHist_ne_nil st.hist d) hbufmem
  unfold acceptStep
  dsimp only
  set m := median (pushHist st.hist d) with hm
  set stable := if 0 < st.smoothed then pickClosest st.smoothed m (m / 2) (m * 2) else m
    with hstable
  have hstb : 0 < stable ∧ stable ≤ 4 * o.maxFreq := by
    rw [hstable]
    split_ifs with h0
    · rcases pickClosest_mem st.smoothed m (m / 2) (m * 2) with hc | hc | hc <;> rw [hc] <;>
        constructor <;> linarith [hmed.1, hmed.2]
    · constructor <;> linarith [hmed.1, hmed.2]
  set prev := if st.smoothed = 0 then stable else st.smoothed with hprev
  have hpb : 0 < prev ∧ prev ≤ 4 * o.maxFreq := by
    rw [hprev]
    split_ifs with h0
    · exact hstb
    · rcases hinv.1 with h | h
      · exact absurd h h0
      · exact h
  set alpha : ℚ :=
    if 0 < prev ∧ (118 / 100 < (if 0 < prev then stable / prev else 1) ∨
        (if 0 < prev then stable / prev else 1) < 85 / 100) then 8 / 100 else 18 / 100 with halpha
  have hab : 0 < alpha ∧ alpha < 1 := by
    rw [halpha]
    split_ifs <;> norm_num
  constructor
  · right
    constructor
    · have h1 := mul_pos hpb.1 (show (0 : ℚ) < 1 - alpha by linarith [hab.2])
      have h2 := mul_pos hstb.1 hab.1
      dsimp only
      linarith
    · have h1 : prev * (1 - alpha) ≤ 4 * o.maxFreq * (1 - alpha) :=
        mul_le_mul_of_nonneg_right hpb.2 (by linarith [hab.2])
      have h2 : stable * alpha ≤ 4 * o.maxFreq * alpha :=
        mul_le_mul_of_nonneg_right hstb.2 (le_of_lt hab.1)
      dsimp only
      calc prev * (1 - alpha) + stable * alpha
          ≤ 4 * o.maxFreq * (1 - alpha) + 4 * o.maxFreq * alpha := add_le_add h1 h2
        _ = 4 * o.maxFreq := by ring
  · exact hbufmem

/-- The missed-frame update preserves the stabilizer invariant. -/
theorem missStep_inv (o : PitchOpts) (st : StabState) (inp : FrameInput)
    (hinv : StabInv o st) : StabInv o (missStep o st inp) := by
  unfold missStep
  split_ifs with h1 h2
  · have hs : 0 < st.smoothed := h1.2.1
    have hs4 : st.smoothed ≤ 4 * o.maxFreq := by
      rcases hinv.1 with h | h
      · exact absurd h (ne_of_gt hs)
      · exact h.2
    refine ⟨Or.inr ⟨by positivity, by nlinarith⟩, ?_⟩
    exact hinv.2
  · exact ⟨Or.inl rfl, by simp⟩
  · exact ⟨Or.inl rfl, by simp⟩

/-- One frame preserves the stabilizer invariant. -/
theorem stepFrame_inv (o : PitchOpts) (st : StabState) (inp : FrameInput)
    (hband : bandValid o inp) (hinv : StabInv o st) :
    StabInv o (stepFrame o st inp).1 := by
  unfold stepFrame
  dsimp only
  split_ifs with hdet
  · exact acceptStep_inv o st _ hinv hdet (detectedOf_le o st inp hband hdet)
  · exact missStep_inv o st inp hinv

set_option maxHeartbeats 1000000 in
/-- C2 counterexample: starting from the reset state with the default band
[120, 900], a hard accept at 900 Hz followed by a soft-quality estimate at
460 Hz (whose doubled octave candidate 920 Hz passes the continuity gate)
drives the smoothed frequency to 901.8 Hz, strictly above `maxFreq`. -/
theorem stab_band_counterexample :
    (∀ i ∈ exFrames, bandValid exOpts i) ∧
    (runFrames exOpts resetStab exFrames).smoothed = 4509 / 5 ∧
    ¬ ((runFrames exOpts resetStab exFrames).smoothed = 0 ∨
        (exOpts.minFreq ≤ (runFrames exOpts resetStab exFrames).smoothed ∧
         (runFrames exOpts resetStab exFrames).smoothed ≤ exOpts.maxFreq)) := by
  have h1 : stepFrame exOpts resetStab ⟨1, 900, 7 / 10, -1⟩ = (⟨900, [900], 0⟩, 900) := by
    norm_num [stepFrame, detectedOf, effectiveRaw, acceptStep, pushHist, median, pickClosest,
      List.insertionSort, List.orderedInsert, abs_of_nonneg, abs_of_nonpos, exOpts, resetStab]
  have h2 : stepFrame exOpts ⟨900, [900], 0⟩ ⟨1, 460, 6 / 10, -1⟩ =
      (⟨4509 / 5, [900, 920], 0⟩, 4509 / 5) := by
    norm_num [stepFrame, detectedOf, effectiveRaw, acceptStep, pushHist, median, pickClosest,
      List.insertionSort, List.orderedInsert, abs_of_nonneg, abs_of_nonpos, exOpts]
  have hrun : (runFrames exOpts resetStab exFrames).smoothed = 4509 / 5 := by
    simp only [runFrames, exFrames, List.foldl_cons, List.foldl_nil, h1, h2]
  refine ⟨?_, hrun, ?_⟩
  · intro i hi
    fin_cases hi <;> exact ⟨Or.inr (by norm_num [exOpts]), Or.inl (by norm_num)⟩
  · rw [hrun]
    push_neg
    refine ⟨by norm_num, fun _ => ?_⟩
    norm_num [exOpts]

/-- C2 amended: for every per-frame input sequence whose estimator outputs
respect the configured band, the smoothed frequency after any number of
steps from the reset state is either 0 or strictly positive and at most
`4 * maxFreq`; it can leave the band `[minFreq, maxFreq]` itself (see the
counterexample), because octave-candidate selection and median
re-resolution can exceed `maxFreq`. -/
theorem stab_smoothed_bounded (o : PitchOpts) (inps : List FrameInput)
    (hband : ∀ i ∈ inps, bandValid o i) :
    (runFrames o resetStab inps).smoothed = 0 ∨
      (0 < (runFrames o resetStab inps).smoothed ∧
        (runFrames o resetStab inps).smoothed ≤ 4 * o.maxFreq) := by
  have hrun : ∀ (l : List FrameInput) (st : StabState), StabInv o st →
      (∀ i ∈ l, bandValid o i) → StabInv o (runFrames o st l) := by
    intro l
    induction l with
    | nil => exact fun st h _ => h
    | cons a l ih =>
      intro st h hb
      show StabInv o (runFrames o ((stepFrame o st a).1) l)
      exact ih _ (stepFrame_inv o st a (hb a (List.mem_cons_self a l)) h)
        (fun i hi => hb i (List.mem_cons_of_mem a hi))
  exact (hrun inps resetStab ⟨Or.inl rfl, by simp [resetStab]⟩ hband).1

/-- Witness for the amended C2 on the concrete two-frame run. -/
theorem stab_smoothed_bounded_witness :
    (∀ i ∈ exFrames, bandValid exOpts i) ∧
    ((runFrames exOpts resetStab exFrames).smoothed = 0 ∨
      (0 < (runFrames exOpts resetStab exFrames).smoothed ∧
        (runFrames exOpts resetStab exFrames).smoothed ≤ 4 * exOpts.maxFreq)) := by
  have hb : ∀ i ∈ exFrames, bandValid exOpts i := by
    intro i hi
    fin_cases hi <;> exact ⟨Or.inr (by norm_num [exOpts]), Or.inl (by norm_num)⟩
  exact ⟨hb, stab_smoothed_bounded exOpts exFrames hb⟩

/-- A missed frame inside the hold window (soft start on, live smoothed
value, RMS at least `minRms * 0.7`, at most 10 consecutive misses) decays
the smoothed value by 0.995 and reports it. -/
theorem stepFrame_decay (o : PitchOpts) (st : StabState) (inp : FrameInput)
    (hdet : detectedOf o st inp ≤ 0) (hsoft : o.allowSoftStart = true)
    (hs : 0 < st.smoothed) (hv : o.minRms * (7 / 10) ≤ inp.volume)
    (hm : st.misses + 1 ≤ 10) :
    stepFrame o st inp = (⟨st.smoothed * (995 / 1000), st.hist, st.misses + 1⟩,
      st.smoothed * (995 / 1000)) := by
  unfold stepFrame
  rw [if_neg (not_lt.mpr hdet)]
  dsimp only
  unfold missStep
  rw [if_pos ⟨hsoft, hs, hv⟩, if_pos hm]

/-- A missed frame past the hold window clears the smoothed value and the
history and reports 0. -/
theorem stepFrame_clear (o : PitchOpts) (st : StabState) (inp : FrameInput)
    (hdet : detectedOf o st inp ≤ 0) (hsoft : o.allowSoftStart = true)
    (hs : 0 < st.smoothed) (hv : o.minRms * (7 / 10) ≤ inp.volume)
    (hm : ¬ st.misses + 1 ≤ 10) :
    stepFrame o st inp = (⟨0, [], st.misses + 1⟩, 0) := by
  unfold stepFrame
  rw [if_neg (not_lt.mpr hdet)]
  dsimp only
  unfold missStep
  rw [if_pos ⟨hsoft, hs, hv⟩, if_neg hm]

/-- C3: with soft start on, a prior smoothed frequency f > 0, a reset miss
counter, and 11 consecutive frames in which no estimate is accepted but RMS
stays at least `minRms * 0.7`: each of the first 10 misses multiplies the
reported frequency by exactly 0.995 (so it stays positive and strictly
decreases each frame), and the 11th miss clears the smoothed value and the
history and reports exactly 0. -/
theorem stab_hold_decay (o : PitchOpts) (st : StabState) (ins : ℕ → FrameInput)
    (f : ℚ) (hsoft : o.allowSoftStart = true) (hsm : st.smoothed = f)
    (hf : 0 < f) (hm0 : st.misses = 0)
    (hmiss : ∀ i < 11, detectedOf o (iterFrames o st ins i) (ins i) ≤ 0)
    (hvol : ∀ i < 11, o.minRms * (7 / 10) ≤ (ins i).volume) :
    (∀ i, 1 ≤ i → i ≤ 10 →
      (iterFrames o st ins i).smoothed = f * (995 / 1000) ^ i ∧
      (stepFrame o (iterFrames o st ins (i - 1)) (ins (i - 1))).2
          = f * (995 / 1000) ^ i ∧
      0 < f * (995 / 1000) ^ i ∧
      f * (995 / 1000) ^ i < f * (995 / 1000) ^ (i - 1)) ∧
    (iterFrames o st ins 11).smoothed = 0 ∧
    (iterFrames o st ins 11).hist = [] ∧
    (stepFrame o (iterFrames o st ins 10) (ins 10)).2 = 0 := by
  have haux : ∀ i, i ≤ 10 →
      iterFrames o st ins i = ⟨f * (995 / 1000) ^ i, st.hist, i⟩ := by
    intro i
    induction i with
    | zero =>
      intro _
      obtain ⟨s, hl, m⟩ := st
      dsimp only at hsm hm0
      subst hsm hm0
      simp [iterFrames, pow_zero, mul_one]
    | succ i ih =>
      intro hle
      have hprev := ih (le_trans (Nat.le_succ i) hle)
      have hd := hmiss i (by omega)
      rw [hprev] at hd
      have hstep := stepFrame_decay o ⟨f * (995 / 1000) ^ i, st.hist, i⟩ (ins i)
        hd hsoft (by positivity) (hvol i (by omega)) (by dsimp only; omega)
      show (stepFrame o (iterFrames o st ins i) (ins i)).1 = _
      rw [hprev, hstep]
      dsimp only
      rw [StabState.mk.injEq]
      refine ⟨by ring, rfl, rfl⟩
  refine ⟨?_, ?_, ?_, ?_⟩
  · intro i h1 h10
    have hcur := haux i h10
    have hprev := haux (i - 1) (by omega)
    have hd := hmiss (i - 1) (by omega)
    rw [hprev] at hd
    have hstep := stepFrame_decay o ⟨f * (995 / 1000) ^ (i - 1), st.hist, i - 1⟩
      (ins (i - 1)) hd hsoft (by positivity) (hvol (i - 1) (by omega))
      (by dsimp only; omega)
    have hpow : f * (995 / 1000 : ℚ) ^ (i - 1) * (995 / 1000)
        = f * (995 / 1000) ^ i := by
      rw [mul_assoc, ← pow_succ]
      congr 2
      omega
    refine ⟨by rw [hcur], ?_, by positivity, ?_⟩
    · rw [hprev, hstep]
      dsimp only
      exact hpow
    · have hlt : ((995 : ℚ) / 1000) ^ i < (995 / 1000) ^ (i - 1) :=
        pow_lt_pow_right_of_lt_one₀ (by norm_num) (by norm_num) (by omega)
      exact mul_lt_mul_of_pos_left hlt hf
  all_goals
    have h10 := haux 10 (le_refl 10)
    have hd := hmiss 10 (by omega)
    rw [h10] at hd
    have hstep := stepFrame_clear o ⟨f * (995 / 1000) ^ 10, st.hist, 10⟩ (ins 10)
      hd hsoft (by positivity) (hvol 10 (by omega)) (by dsimp only; omega)
  · show (stepFrame o (iterFrames o st ins 10) (ins 10)).1.smoothed = 0
    rw [h10, hstep]
  · show (stepFrame o (iterFrames o st ins 10) (ins 10)).1.hist = []
    rw [h10, hstep]
  · rw [h10, hstep]

/-- Witness for C3: concrete hold/decay run with f = 1 and silent frames. -/
theorem stab_hold_decay_witness :
    (0 : ℚ) < 1 ∧
    (iterFrames exHoldOpts ⟨1, [], 0⟩ exHoldIns 11).smoothed = 0 ∧
    (iterFrames exHoldOpts ⟨1, [], 0⟩ exHoldIns 11).hist = [] ∧
    (stepFrame exHoldOpts (iterFrames exHoldOpts ⟨1, [], 0⟩ exHoldIns 10)
      (exHoldIns 10)).2 = 0 := by
  have hdet : ∀ (s : StabState), detectedOf exHoldOpts s (⟨7 / 10, -1, 0, -1⟩) ≤ 0 := by
    intro s
    norm_num [detectedOf, effectiveRaw, exHoldOpts]
  refine ⟨by norm_num, stab_hold_decay exHoldOpts ⟨1, [], 0⟩ exHoldIns 1 rfl rfl
    (by norm_num) rfl (fun i _ => hdet _) (fun i _ => by norm_num [exHoldOpts, exHoldIns]) |>.2⟩

/-- Among the octave candidates of a raw estimate at exactly twice the prior
value, the prior value itself is picked. -/
theorem pickClosest_double (p : ℚ) (hp : 0 < p) :
    pickClosest p (2 * p) (2 * p / 2) (2 * p * 2) = p := by
  unfold pickClosest
  rw [show 2 * p - p = p by ring, show 2 * p / 2 - p = 0 by ring,
    show 2 * p * 2 - p = 3 * p by ring, abs_zero, abs_of_pos hp]
  rw [if_neg (not_le.mpr hp), if_pos (by positivity)]
  ring

/-- Among the octave candidates of a raw estimate at exactly half the prior
value, the prior value itself is picked. -/
theorem pickClosest_half (p : ℚ) (hp : 0 < p) :
    pickClosest p (p / 2) (p / 2 / 2) (p / 2 * 2) = p := by
  unfold pickClosest
  rw [show p / 2 - p = -(p / 2) by ring, show p / 2 / 2 - p = -(3 / 4 * p) by ring,
    show p / 2 * 2 - p = 0 by ring, abs_zero, abs_neg, abs_neg,
    abs_of_pos (show (0 : ℚ) < p / 2 by positivity),
    abs_of_pos (show (0 : ℚ) < 3 / 4 * p by positivity)]
  rw [if_pos (by linarith), if_neg (by push_neg; positivity)]
  ring

/-- C4: for a raw estimate f > 0 whose confidence is in
`[softQuality, minQuality)` (so the spectral fallback does not fire and the
hard accept does not apply), the soft-accept stage behaves as specified:
with a prior smoothed value p > 0 it picks the octave candidate closest to p
and accepts it exactly when its ratio to p is strictly inside (0.86, 1.16)
— in particular f = 2p and f = p/2 are folded back to p —; with no prior
value it accepts f exactly when `allowSoftStart` holds and RMS is at least
`minRms * 1.4`. -/
theorem stab_soft_accept (o : PitchOpts) (st : StabState) (inp : FrameInput)
    (hv : o.minRms ≤ inp.volume) (hf : 0 < inp.yinFreq)
    (hq1 : o.softQuality ≤ inp.yinQuality) (hq2 : inp.yinQuality < o.minQuality) :
    (0 < st.smoothed →
      (pickClosest st.smoothed inp.yinFreq (inp.yinFreq / 2) (inp.yinFreq * 2)
          ∈ [inp.yinFreq, inp.yinFreq / 2, inp.yinFreq * 2] ∧
        (∀ c ∈ [inp.yinFreq, inp.yinFreq / 2, inp.yinFreq * 2],
          |pickClosest st.smoothed inp.yinFreq (inp.yinFreq / 2) (inp.yinFreq * 2)
              - st.smoothed| ≤ |c - st.smoothed|)) ∧
      detectedOf o st inp =
        (if 86 / 100 <
              pickClosest st.smoothed inp.yinFreq (inp.yinFreq / 2) (inp.yinFreq * 2)
                / st.smoothed ∧
            pickClosest st.smoothed inp.yinFreq (inp.yinFreq / 2) (inp.yinFreq * 2)
                / st.smoothed < 116 / 100 then
          pickClosest st.smoothed inp.yinFreq (inp.yinFreq / 2) (inp.yinFreq * 2)
        else -1) ∧
      ((inp.yinFreq = 2 * st.smoothed ∨ inp.yinFreq = st.smoothed / 2) →
        detectedOf o st inp = st.smoothed)) ∧
    (st.smoothed = 0 →
      detectedOf o st inp =
        (if o.allowSoftStart ∧ o.minRms * (7 / 5) ≤ inp.volume then inp.yinFreq
         else -1)) := by
  have hraw : effectiveRaw o inp = (inp.yinFreq, inp.yinQuality) := by
    unfold effectiveRaw
    rw [if_pos hv]
    dsimp only
    rw [if_neg]
    rintro ⟨h, -⟩
    rcases h with h | h
    · linarith
    · linarith
  have hdet : detectedOf o st inp =
      (if 0 < st.smoothed then
        (if 86 / 100 <
              pickClosest st.smoothed inp.yinFreq (inp.yinFreq / 2) (inp.yinFreq * 2)
                / st.smoothed ∧
            pickClosest st.smoothed inp.yinFreq (inp.yinFreq / 2) (inp.yinFreq * 2)
                / st.smoothed < 116 / 100 then
          pickClosest st.smoothed inp.yinFreq (inp.yinFreq / 2) (inp.yinFreq * 2)
        else -1)
      else if o.allowSoftStart ∧ o.minRms * (7 / 5) ≤ inp.volume then inp.yinFreq
      else -1) := by
    unfold detectedOf
    rw [hraw]
    dsimp only
    rw [if_neg (fun h => absurd h.2 (not_le.mpr hq2)), if_pos ⟨hf, hq1⟩]
  constructor
  · intro hp
    refine ⟨⟨?_, ?_⟩, ?_, ?_⟩
    · rcases pickClosest_mem st.smoothed inp.yinFreq (inp.yinFreq / 2)
        (inp.yinFreq * 2) with h | h | h <;> simp [h]
    · intro c hc
      have hle := pickClosest_le st.smoothed inp.yinFreq (inp.yinFreq / 2)
        (inp.yinFreq * 2)
      rcases List.mem_cons.mp hc with h | hc2
      · rw [h]
        exact hle.1
      rcases List.mem_cons.mp hc2 with h | hc3
      · rw [h]
        exact hle.2.1
      · rw [List.mem_singleton.mp hc3]
        exact hle.2.2
    · rw [hdet, if_pos hp]
    · intro hcase
      rw [hdet, if_pos hp]
      rcases hcase with h | h <;> rw [h]
      · rw [pickClosest_double st.smoothed hp, div_self (ne_of_gt hp)]
        rw [if_pos (by norm_num)]
      · rw [pickClosest_half st.smoothed hp, div_self (ne_of_gt hp)]
        rw [if_pos (by norm_num)]
  · intro h0
    rw [hdet, if_neg (by rw [h0]; exact lt_irrefl 0)]

/-- Witness for C4: prior smoothed value 230 Hz, raw estimate 460 Hz (its
exact double) at soft quality is folded back to 230 Hz. -/
theorem stab_soft_accept_witness :
    (0 : ℚ) < 230 ∧ detectedOf exOpts ⟨230, [], 0⟩ ⟨1, 460, 6 / 10, -1⟩ = 230 := by
  refine ⟨by norm_num, ?_⟩
  have h := (stab_soft_accept exOpts ⟨230, [], 0⟩ ⟨1, 460, 6 / 10, -1⟩
    (by norm_num [exOpts]) (by norm_num) (by norm_num [exOpts])
    (by norm_num [exOpts])).1 (by norm_num)
  exact h.2.2 (Or.inl (by norm_num))

/-! ### YIN estimator theorems -/

/-- Membership in the inclusive lag range. -/
theorem yinLagList_mem (a b τ : ℤ) : τ ∈ yinLagList a b ↔ a ≤ τ ∧ τ ≤ b := by
  unfold yinLagList
  simp only [List.mem_map, List.mem_range]
  constructor
  · rintro ⟨j, hj, rfl⟩
    omega
  · intro h
    exact ⟨(τ - a).toNat, by omega, by omega⟩

/-- C5: the primary estimator either returns the no-pitch result (-1 with
confidence 0) — in particular whenever no CMND value in the lag range drops
below the threshold — or an in-band frequency whose confidence is
`clamp(1 - cmnd(selectedLag), 0, 1)`; it never returns a frequency outside
`[minFreq, maxFreq]` except the no-pitch sentinel. -/
theorem yin_result_spec (buffer : List ℚ)
    (sampleRate threshold minFreq maxFreq : ℚ) :
    ((∀ τ ∈ yinLagList (yinMinTau sampleRate maxFreq)
          (yinMaxTau buffer sampleRate minFreq),
        threshold ≤ yinCmnd buffer (yinMinTau sampleRate maxFreq) τ) →
      yinPitchDetailed buffer sampleRate threshold minFreq maxFreq = ⟨-1, 0⟩) ∧
    (((yinPitchDetailed buffer sampleRate threshold minFreq maxFreq).freq ≤ 0 ∧
        (yinPitchDetailed buffer sampleRate threshold minFreq maxFreq).quality = 0) ∨
      (minFreq ≤ (yinPitchDetailed buffer sampleRate threshold minFreq maxFreq).freq ∧
        (yinPitchDetailed buffer sampleRate threshold minFreq maxFreq).freq ≤ maxFreq ∧
        ∃ τ, yinSelect buffer threshold (yinMinTau sampleRate maxFreq)
            (yinMaxTau buffer sampleRate minFreq) = some τ ∧
          (yinPitchDetailed buffer sampleRate threshold minFreq maxFreq).quality
            = max 0 (min 1 (1 - yinCmnd buffer (yinMinTau sampleRate maxFreq) τ)))) := by
  unfold yinPitchDetailed
  dsimp only
  split_ifs with hhalf
  · exact ⟨fun _ => rfl, Or.inl ⟨by norm_num, rfl⟩⟩
  cases hsel : yinSelect buffer threshold (yinMinTau sampleRate maxFreq)
      (yinMaxTau buffer sampleRate minFreq) with
  | none =>
    simp only [hsel]
    exact ⟨fun _ => trivial, Or.inl ⟨by norm_num, by norm_num⟩⟩
  | some τ =>
    simp only [hsel]
    constructor
    · intro hall
      exfalso
      unfold yinSelect at hsel
      cases hscan : yinScan buffer threshold (yinMinTau sampleRate maxFreq)
          (yinMaxTau buffer sampleRate minFreq) with
      | none =>
        rw [hscan] at hsel
        exact Option.noConfusion hsel
      | some τ0 =>
        unfold yinScan at hscan
        have hmem := List.mem_of_find?_eq_some hscan
        have hfind := List.find?_some hscan
        have hlt : yinCmnd buffer (yinMinTau sampleRate maxFreq) τ0 < threshold :=
          of_decide_eq_true hfind
        have hτ0 : τ0 ∈ yinLagList (yinMinTau sampleRate maxFreq)
            (yinMaxTau buffer sampleRate minFreq) := by
          rw [yinLagList_mem]
          rw [yinLagList_mem] at hmem
          omega
        linarith [hall τ0 hτ0]
    · split_ifs with hb hfr
      · exact Or.inl ⟨by norm_num, rfl⟩
      · exact Or.inl ⟨by norm_num, rfl⟩
      · push_neg at hfr
        exact Or.inr ⟨hfr.1, hfr.2, τ, rfl, by norm_num⟩


/-- C6: the numerical edge cases of the estimator are total: the running sum of
the difference function is never negative, a zero running sum yields the
defensive CMND value 1 (no division), and a zero parabola denominator makes
the refinement return the unrefined integer lag (no division). -/
theorem yin_no_div_by_zero (buffer : List ℚ) (minTau maxTau τ : ℤ) :
    0 ≤ yinRunSum buffer minTau τ ∧
    (yinRunSum buffer minTau τ = 0 → yinCmnd buffer minTau τ = 1) ∧
    (yinParabolaDenom buffer minTau maxTau τ = 0 →
      yinRefine buffer minTau maxTau τ = (τ : ℚ)) := by
  refine ⟨?_, ?_, ?_⟩
  · unfold yinRunSum
    apply Finset.sum_nonneg
    intro j _
    unfold yinDiff
    apply Finset.sum_nonneg
    intro i _
    positivity
  · intro h0
    unfold yinCmnd
    split_ifs with h1 h2
    · rfl
    · rw [h0] at h2
      exact absurd h2 (lt_irrefl 0)
    · rfl
  · intro hd
    unfold yinRefine
    dsimp only
    rw [if_neg (fun h => h hd)]

/-- Evaluation of the silent block: every read is 0. -/
theorem bufAt_zeroBlock (k : ℕ) : bufAt zeroBlock k = 0 := by
  unfold bufAt zeroBlock
  match k with
  | 0 | 1 | 2 | 3 | 4 | 5 | 6 | 7 => rfl
  | n + 8 => simp [List.getD]

/-- On the silent block the running sum vanishes at every lag. -/
theorem yinRunSum_zeroBlock (minTau τ : ℤ) : yinRunSum zeroBlock minTau τ = 0 := by
  unfold yinRunSum
  apply Finset.sum_eq_zero
  intro j _
  unfold yinDiff
  apply Finset.sum_eq_zero
  intro i _
  rw [bufAt_zeroBlock, bufAt_zeroBlock]
  ring

/-- On the silent block every CMND value is the defensive 1. -/
theorem yinCmnd_zeroBlock (minTau τ : ℤ) : yinCmnd zeroBlock minTau τ = 1 := by
  unfold yinCmnd
  split_ifs with h1 h2
  · rfl
  · exact absurd (yinRunSum_zeroBlock minTau τ ▸ h2) (lt_irrefl 0)
  · rfl

/-- Witness for C5: pure silence (all-zero block, sample rate 8, band
[1, 4], threshold 0.12) never crosses the threshold and yields no pitch. -/
theorem yin_result_spec_witness :
    (∀ τ ∈ yinLagList (yinMinTau 8 4) (yinMaxTau zeroBlock 8 1),
        (12 / 100 : ℚ) ≤ yinCmnd zeroBlock (yinMinTau 8 4) τ) ∧
    yinPitchDetailed zeroBlock 8 (12 / 100) 1 4 = ⟨-1, 0⟩ := by
  have hall : ∀ τ ∈ yinLagList (yinMinTau 8 4) (yinMaxTau zeroBlock 8 1),
      (12 / 100 : ℚ) ≤ yinCmnd zeroBlock (yinMinTau 8 4) τ := by
    intro τ _
    rw [yinCmnd_zeroBlock]
    norm_num
  exact ⟨hall, (yin_result_spec zeroBlock 8 (12 / 100) 1 4).1 hall⟩

/-- Witness for C6 at lag 3 of the silent block (lag range [2, 3]): zero
running sum gives CMND 1, and the degenerate parabola denominator makes the
refinement return the integer lag. -/
theorem yin_no_div_by_zero_witness :
    yinRunSum zeroBlock 2 3 = 0 ∧ yinCmnd zeroBlock 2 3 = 1 ∧
    yinParabolaDenom zeroBlock 2 3 3 = 0 ∧
    yinRefine zeroBlock 2 3 3 = (3 : ℚ) := by
  have hden : yinParabolaDenom zeroBlock 2 3 3 = 0 := by
    unfold yinParabolaDenom
    dsimp only
    rw [yinCmnd_zeroBlock, yinCmnd_zeroBlock, yinCmnd_zeroBlock]
    ring
  exact ⟨yinRunSum_zeroBlock 2 3,
    (yin_no_div_by_zero zeroBlock 2 3 3).2.1 (yinRunSum_zeroBlock 2 3), hden,
    (yin_no_div_by_zero zeroBlock 2 3 3).2.2 hden⟩

/-! ### Chord matching and teardown theorems -/

/-- Fold invariant of the best-match scan: starting from a seen candidate,
the scan returns a minimizing candidate among the seen one and the rest. -/
theorem bestOf_go_spec (t : UkuleleType) (freq : ℝ) :
    ∀ (ps : List Pos) (b : Pos),
      ∃ b2 : Pos,
        ps.foldl
          (fun acc p =>
            let cents := centsDistTo freq (expectedFreqOf t p)
            match acc with
            | none => some (p, cents, expectedFreqOf t p)
            | some (b, bc, be) =>
              if cents < bc then some (p, cents, expectedFreqOf t p) else some (b, bc, be))
          (some (b, centsDistTo freq (expectedFreqOf t b), expectedFreqOf t b))
          = some (b2, centsDistTo freq (expectedFreqOf t b2), expectedFreqOf t b2) ∧
        (b2 = b ∨ b2 ∈ ps) ∧
        centsDistTo freq (expectedFreqOf t b2) ≤ centsDistTo freq (expectedFreqOf t b) ∧
        ∀ q ∈ ps, centsDistTo freq (expectedFreqOf t b2) ≤ centsDistTo freq (expectedFreqOf t q) := by
  intro ps
  induction ps with
  | nil => exact fun b => ⟨b, rfl, Or.inl rfl, le_refl _, fun q hq => absurd hq (List.not_mem_nil q)⟩
  | cons p rest ih =>
    intro b
    rw [List.foldl_cons]
    dsimp only
    split_ifs with hlt
    · obtain ⟨b2, heq, hmem, hle, hall⟩ := ih p
      refine ⟨b2, heq, ?_, ?_, ?_⟩
      · rcases hmem with h | h
        · exact Or.inr (h ▸ List.mem_cons_self p rest)
        · exact Or.inr (List.mem_cons_of_mem p h)
      · linarith
      · intro q hq
        rcases List.mem_cons.mp hq with h | h
        · rw [h]
          exact hle
        · exact hall q h
    · obtain ⟨b2, heq, hmem, hle, hall⟩ := ih b
      refine ⟨b2, heq, ?_, hle, ?_⟩
      · rcases hmem with h | h
        · exact Or.inl h
        · exact Or.inr (List.mem_cons_of_mem p h)
      · intro q hq
        rcases List.mem_cons.mp hq with h | h
        · rw [h]
          push_neg at hlt
          linarith
        · exact hall q h

/-- The best-match scan of a nonempty position list returns a member that
minimizes the cents distance. -/
theorem bestOf_spec (t : UkuleleType) (freq : ℝ) (positions : List Pos)
    (hne : positions ≠ []) :
    ∃ b ∈ positions,
      bestOf t freq positions
        = some (b, centsDistTo freq (expectedFreqOf t b), expectedFreqOf t b) ∧
      ∀ q ∈ positions, centsDistTo freq (expectedFreqOf t b) ≤ centsDistTo freq (expectedFreqOf t q) := by
  cases positions with
  | nil => exact absurd rfl hne
  | cons p rest =>
    unfold bestOf
    rw [List.foldl_cons]
    dsimp only
    obtain ⟨b2, heq, hmem, hle, hall⟩ := bestOf_go_spec t freq rest p
    refine ⟨b2, ?_, heq, ?_⟩
    · rcases hmem with h | h
      · exact h ▸ List.mem_cons_self p rest
      · exact List.mem_cons_of_mem p h
    · intro q hq
      rcases List.mem_cons.mp hq with h | h
      · rw [h]
        exact hle
      · exact hall q h

/-- C8: in chord matching with a positive detected frequency and a nonempty
list of valid target positions, exactly one position — one minimizing the
absolute cents distance — receives the correct/close/wrong verdict of
`isNoteMatch`, and every position with a different key stays `waiting`. -/
theorem noteStatuses_best_only (t : UkuleleType) (freq : ℝ) (positions : List Pos)
    (hfreq : 0 < freq) (hne : positions ≠ [])
    (_hvalid : ∀ p ∈ positions, p.string ≤ 3) :
    ∃ b ∈ positions,
      (∀ q ∈ positions,
        centsDistTo freq (expectedFreqOf t b) ≤ centsDistTo freq (expectedFreqOf t q)) ∧
      noteStatuses t true true freq positions (posKey b)
        = (isNoteMatch freq (expectedFreqOf t b) 50).toStatus ∧
      (isNoteMatch freq (expectedFreqOf t b) 50).toStatus ≠ .waiting ∧
      ∀ q ∈ positions, posKey q ≠ posKey b →
        noteStatuses t true true freq positions (posKey q) = .waiting := by
  obtain ⟨b, hb, heq, hmin⟩ := bestOf_spec t freq positions hne
  have hguard : ¬(¬(true : Bool) ∨ ¬(true : Bool) ∨ freq ≤ 0 ∨ positions = []) := by
    rintro (h | h | h | h)
    · exact h rfl
    · exact h rfl
    · exact absurd h (not_le.mpr hfreq)
    · exact hne h
  refine ⟨b, hb, hmin, ?_, ?_, ?_⟩
  · unfold noteStatuses
    rw [if_neg hguard, heq]
    dsimp only
    rw [if_pos rfl]
  · cases isNoteMatch freq (expectedFreqOf t b) 50 <;> simp [MatchResult.toStatus]
  · intro q hq hkey
    unfold noteStatuses
    rw [if_neg hguard, heq]
    dsimp only
    rw [if_neg hkey]

/-- Witness for C8: the open A string (app string 0, fret 0) at 440 Hz. -/
theorem noteStatuses_best_only_witness :
    ((0 : ℝ) < 440 ∧ ([⟨0, 0⟩] : List Pos) ≠ [] ∧
      (∀ p ∈ ([⟨0, 0⟩] : List Pos), p.string ≤ 3)) ∧
    ∃ b ∈ ([⟨0, 0⟩] : List Pos),
      (∀ q ∈ ([⟨0, 0⟩] : List Pos),
        centsDistTo 440 (expectedFreqOf .soprano b)
          ≤ centsDistTo 440 (expectedFreqOf .soprano q)) ∧
      noteStatuses .soprano true true 440 [⟨0, 0⟩] (posKey b)
        = (isNoteMatch 440 (expectedFreqOf .soprano b) 50).toStatus ∧
      (isNoteMatch 440 (expectedFreqOf .soprano b) 50).toStatus ≠ .waiting ∧
      ∀ q ∈ ([⟨0, 0⟩] : List Pos), posKey q ≠ posKey b →
        noteStatuses .soprano true true 440 [⟨0, 0⟩] (posKey q) = .waiting := by
  have h1 : (0 : ℝ) < 440 := by norm_num
  have h2 : ([⟨0, 0⟩] : List Pos) ≠ [] := by simp
  have h3 : ∀ p ∈ ([⟨0, 0⟩] : List Pos), p.string ≤ 3 := by
    intro p hp
    rw [List.mem_singleton.mp hp]
    exact Nat.zero_le 3
  exact ⟨⟨h1, h2, h3⟩, noteStatuses_best_only .soprano 440 [⟨0, 0⟩] h1 h2 h3⟩


/-- Teardown always reaches the one fully-stopped state, whatever held
before. -/
theorem stopListening_eq_stopped (s : SessionState) :
    stopListening s = stoppedState := by
  unfold stopListening stoppedState
  dsimp only
  cases h : s.animationFrame <;>
    simp only [h] <;>
    split_ifs with h1 h2 <;>
    simp_all [SessionState.mk.injEq]

/-- C9: `stopListening` is safe from any session state and idempotent: one
call leaves no scheduled loop, no capture resources, a cleared stabilizer
(smoothed 0, empty history, zero misses) and the not-listening status, and a
second call leaves that state unchanged. -/
theorem stopListening_spec (s : SessionState) :
    (stopListening s).animationFrame = none ∧
    (stopListening s).stream = false ∧
    (stopListening s).audioContext = false ∧
    (stopListening s).analyser = false ∧
    (stopListening s).buffer = false ∧
    (stopListening s).processed = false ∧
    (stopListening s).freqData = false ∧
    (stopListening s).stab.smoothed = 0 ∧
    (stopListening s).stab.hist = [] ∧
    (stopListening s).stab.misses = 0 ∧
    (stopListening s).isListening = false ∧
    (stopListening s).frequency = 0 ∧
    (stopListening s).volume = 0 ∧
    (stopListening s).error = none ∧
    stopListening (stopListening s) = stopListening s := by
  rw [stopListening_eq_stopped s, stopListening_eq_stopped stoppedState]
  refine ⟨rfl, rfl, rfl, rfl, rfl, rfl, rfl, rfl, rfl, rfl, rfl, rfl, rfl, rfl, rfl⟩

end UkuNotes
